import Mathlib

/-!
Verification of the genetic-algorithm and neural-network core of the
neuron-game repository against its specification.

The Rust source is shallowly embedded:
* f32 values are modelled as exact rationals (ℚ); none of the verified
  claims depends on floating-point rounding.
* the random generator (rand::RngCore) is modelled as an infinite stream
  of raw 64-bit draws together with a cursor; every primitive of the rand
  crate used by the source (gen_bool, gen::<f32>, gen_range, the uniform
  draw inside choose_weighted) consumes exactly one raw draw, which is
  the granularity the source's reproducibility contract is stated at.
* panics (assert!, expect, index out of range) are modelled as None /
  explicit error values.
-/

attribute [local semireducible] Rat.mul Rat.add Rat.sub Rat.inv Rat.ofScientific

/-- A random source: an infinite stream of raw draws plus a cursor.
Models a rand::RngCore implementation (one stream state, advanced by
every draw). -/
structure Rng where
  stream : Nat → Nat
  idx : Nat

/-- 2^64, the modulus of one raw draw. -/
def u64Size : Nat := 2 ^ 64

/-- Draw one raw 64-bit value and advance the cursor. -/
def Rng.next (r : Rng) : Nat × Rng :=
  (r.stream r.idx % u64Size, ⟨r.stream, r.idx + 1⟩)

/-- rand's Rng::gen_bool(p): Bernoulli sampling.  For p = 1 the sampler
returns true without drawing (the ALWAYS_TRUE sentinel of
rand::distributions::Bernoulli); otherwise one raw draw v is compared
against p·2^64.  Callers in the source only pass p ∈ [0, 1] (0.5
literals, and a mutation chance validated at construction). -/
def genBool (p : ℚ) (r : Rng) : Bool × Rng :=
  if p = 1 then (true, r)
  else
    let (v, r') := r.next
    (decide ((v : ℚ) < p * 2 ^ 64), r')

/-- rand's Rng::gen::<f32>(): one raw draw mapped into [0, 1). -/
def genF32 (r : Rng) : ℚ × Rng :=
  let (v, r') := r.next
  ((v : ℚ) / 2 ^ 64, r')

/-- rand's Rng::gen_range(lo..=hi) on floats: one raw draw mapped
affinely into [lo, hi]. -/
def genRange (lo hi : ℚ) (r : Rng) : ℚ × Rng :=
  let (v, r') := r.next
  (lo + (hi - lo) * ((v : ℚ) / 2 ^ 64), r')

/-- The fair coin that gen_bool(0.5) produces from the i-th raw draw
after the cursor of r.  Used to state which flip decides which gene. -/
def coinAt (r : Rng) (i : Nat) : Bool :=
  (genBool (1 / 2) ⟨r.stream, r.idx + i⟩).1

/-- Chromosome (src/libs/genetic-algorithm/src/chromosome.rs): an owned
vector of f32 genes. -/
structure Chromosome where
  genes : List ℚ
  deriving DecidableEq

/-- Chromosome::len. -/
def Chromosome.len (c : Chromosome) : Nat :=
  c.genes.length

/-- Chromosome's FromIterator impl: collect a sequence of floats, in
order, into the genes vector. -/
def Chromosome.fromSeq (l : List ℚ) : Chromosome :=
  { genes := l }

/-- Chromosome::iter (also its IntoIterator impl): yield the genes in
storage order. -/
def Chromosome.iterSeq (c : Chromosome) : List ℚ :=
  c.genes

/-- The gene-wise loop of UniformCrossover::crossover: zip the two
parents and keep, per position, the parent-a gene when gen_bool(0.5)
says true, else the parent-b gene.  The rng is threaded left to
right, exactly as the Rust iterator drives it. -/
def crossoverGo : List ℚ → List ℚ → Rng → List ℚ × Rng
  | a :: as_, b :: bs, r =>
    let (flip, r1) := genBool (1 / 2) r
    let (rest, r2) := crossoverGo as_ bs r1
    ((if flip then a else b) :: rest, r2)
  | _, _, r => ([], r)

/-- UniformCrossover::crossover.  The assert_eq! on the parents'
lengths is modelled as None. -/
def UniformCrossover.crossover (rng : Rng) (parent_a parent_b : Chromosome) :
    Option (Chromosome × Rng) :=
  if parent_a.len = parent_b.len then
    some (⟨(crossoverGo parent_a.genes parent_b.genes rng).1⟩,
      (crossoverGo parent_a.genes parent_b.genes rng).2)
  else none

/-- GaussianMutation (chance, coeff). -/
structure GaussianMutation where
  chance : ℚ
  coeff : ℚ
  deriving DecidableEq

/-- GaussianMutation::new: assert!(chance >= 0.0 && chance <= 1.0),
modelled as None on violation. -/
def GaussianMutation.new (chance coeff : ℚ) : Option GaussianMutation :=
  if 0 ≤ chance ∧ chance ≤ 1 then some ⟨chance, coeff⟩ else none

/-- The per-gene loop of GaussianMutation::mutate: draw a sign from a
fair coin, then with probability chance add sign · coeff · gen::<f32>()
to the gene.  The sign draw is consumed whether or not the
perturbation is applied. -/
def mutateGo (m : GaussianMutation) : List ℚ → Rng → List ℚ × Rng
  | [], r => ([], r)
  | g :: gs, r =>
    let (flip, r1) := genBool (1 / 2) r
    let sign : ℚ := if flip then -1 else 1
    let (hit, r2) := genBool m.chance r1
    let (g', r3) :=
      if hit then
        let (mag, rm) := genF32 r2
        (g + sign * m.coeff * mag, rm)
      else (g, r2)
    let (rest, r4) := mutateGo m gs r3
    (g' :: rest, r4)

/-- GaussianMutation::mutate (in place in Rust; here the new chromosome
is returned together with the advanced rng). -/
def GaussianMutation.mutate (m : GaussianMutation) (rng : Rng) (child : Chromosome) :
    Chromosome × Rng :=
  let (gs, r') := mutateGo m child.genes rng
  (⟨gs⟩, r')

/-- The error cases of rand's WeightedIndex::new / choose_weighted
(rand::distributions::WeightedError). -/
inductive WeightedError where
  | noItem
  | invalidWeight
  | allWeightsZero
  deriving DecidableEq

/-- The accumulation loop of rand's WeightedIndex::new: after the first
weight, each further weight is validated (negative weights are
rejected), the running total so far is pushed onto the cumulative
list, and the weight is added to the total.  At the end a zero total
is rejected. -/
def weightedIndexGo : List ℚ → ℚ → List ℚ → Except WeightedError (List ℚ × ℚ)
  | [], total, acc => if total = 0 then .error .allWeightsZero else .ok (acc.reverse, total)
  | w :: ws, total, acc =>
    if w < 0 then .error .invalidWeight
    else weightedIndexGo ws (total + w) (total :: acc)

/-- rand's WeightedIndex::new on the list of weights: returns the
cumulative-weight list (one entry per weight except the last) and the
total, or the explicit error rand reports. -/
def weightedIndexNew : List ℚ → Except WeightedError (List ℚ × ℚ)
  | [] => .error .noItem
  | w :: ws => if w < 0 then .error .invalidWeight else weightedIndexGo ws w []

/-- rand's SliceRandom::choose_weighted, as used by
RouletteWheelSelection::select: build the weighted index from the
members' fitness values, draw one uniform value in [0, total), and
pick the member at the sampled position (partition_point over the
cumulative weights).  The unreachable fallback arm models the
impossible out-of-range index. -/
def chooseWeighted {I : Type} (fitness : I → ℚ) (rng : Rng) (population : List I) :
    Except WeightedError (I × Rng) :=
  match weightedIndexNew (population.map fitness) with
  | .error e => .error e
  | .ok (cums, total) =>
    match population[(cums.takeWhile
        (fun w => decide (w ≤ total * ((rng.next.1 : ℚ) / 2 ^ 64)))).length]? with
    | some member => .ok (member, rng.next.2)
    | none => .error .noItem

/-- RouletteWheelSelection::select: choose_weighted followed by
expect (a panic, modelled as None). -/
def RouletteWheelSelection.select {I : Type} (fitness : I → ℚ) (rng : Rng)
    (population : List I) : Option (I × Rng) :=
  (chooseWeighted fitness rng population).toOption

/-- The Individual trait: create from a chromosome, report fitness,
expose the chromosome. -/
structure IndividualOps (I : Type) where
  create : Chromosome → I
  fitness : I → ℚ
  chromosome : I → Chromosome

/-- GeneticAlgorithm's three pluggable operators (the selection method
plus the boxed crossover and mutation methods).  Selection and
crossover may fail (a panic inside the method), mutation is total. -/
structure GeneticAlgorithm (I : Type) where
  selectionMethod : Rng → List I → Option (I × Rng)
  crossoverMethod : Rng → Chromosome → Chromosome → Option (Chromosome × Rng)
  mutationMethod : Rng → Chromosome → Chromosome × Rng

/-- The iteration of GeneticAlgorithm::evolve: the body mapped over
0..population.len(), with the rng threaded through the closure calls
in source order (select parent a, select parent b, crossover, mutate,
create). -/
def evolveLoop {I : Type} (ops : IndividualOps I) (ga : GeneticAlgorithm I)
    (population : List I) : Nat → Rng → Option (List I)
  | 0, _ => some []
  | k + 1, rng =>
    match ga.selectionMethod rng population with
    | none => none
    | some (parentA, r1) =>
      match ga.selectionMethod r1 population with
      | none => none
      | some (parentB, r2) =>
        match ga.crossoverMethod r2 (ops.chromosome parentA) (ops.chromosome parentB) with
        | none => none
        | some (child, r3) =>
          match evolveLoop ops ga population k (ga.mutationMethod r3 child).2 with
          | none => none
          | some rest => some (ops.create (ga.mutationMethod r3 child).1 :: rest)

/-- GeneticAlgorithm::evolve: one generational step, one iteration per
member of the input population. -/
def evolve {I : Type} (ops : IndividualOps I) (ga : GeneticAlgorithm I)
    (rng : Rng) (population : List I) : Option (List I) :=
  evolveLoop ops ga population population.length rng

/-- Neuron (src/libs/neural-network/src/lib.rs): a bias and one weight
per input. -/
structure Neuron where
  bias : ℚ
  weights : List ℚ
  deriving DecidableEq

/-- Layer: an ordered list of neurons. -/
structure Layer where
  neurons : List Neuron
  deriving DecidableEq

/-- Network: an ordered list of layers. -/
structure Network where
  layers : List Layer
  deriving DecidableEq

/-- LayerTopology: a neuron count. -/
structure LayerTopology where
  neurons : Nat
  deriving DecidableEq

/-- The dot product inside Neuron::propagate: zip inputs with weights,
multiply pointwise, sum. -/
def dot (inputs weights : List ℚ) : ℚ :=
  (List.zipWith (fun a b => a * b) inputs weights).sum

/-- Neuron::propagate: assert_eq! on the lengths (modelled as None),
then max(bias + dot, 0). -/
def Neuron.propagate (n : Neuron) (inputs : List ℚ) : Option ℚ :=
  if inputs.length = n.weights.length then
    some (max (n.bias + dot inputs n.weights) 0)
  else none

/-- The collect loop of Layer::propagate: each neuron's output in
order; a failing neuron fails the layer. -/
def collectOutputs : List Neuron → List ℚ → Option (List ℚ)
  | [], _ => some []
  | n :: ns, inputs =>
    match n.propagate inputs with
    | none => none
    | some o =>
      match collectOutputs ns inputs with
      | none => none
      | some rest => some (o :: rest)

/-- Layer::propagate. -/
def Layer.propagate (l : Layer) (inputs : List ℚ) : Option (List ℚ) :=
  collectOutputs l.neurons inputs

/-- The fold of Network::propagate: feed the vector through the layers
in order. -/
def propagateLayers : List Layer → List ℚ → Option (List ℚ)
  | [], inputs => some inputs
  | l :: ls, inputs =>
    match l.propagate inputs with
    | none => none
    | some mid => propagateLayers ls mid

/-- Network::propagate. -/
def Network.propagate (net : Network) (inputs : List ℚ) : Option (List ℚ) :=
  propagateLayers net.layers inputs

/-- Neuron::random: draw the bias with gen_range(-1.0..=1.0), then one
weight per input, from the rng handed in by the caller. -/
def weightDraws : Nat → Rng → List ℚ × Rng
  | 0, r => ([], r)
  | k + 1, r =>
    let (w, r1) := genRange (-1) 1 r
    let (rest, r2) := weightDraws k r1
    (w :: rest, r2)

/-- Neuron::random (the parameter is named output_size in the source
but counts this neuron's weights, i.e. its inputs). -/
def Neuron.random (rng : Rng) (output_size : Nat) : Neuron × Rng :=
  let (bias, r1) := genRange (-1) 1 rng
  let (weights, r2) := weightDraws output_size r1
  (⟨bias, weights⟩, r2)

/-- The push loop of Layer::random. -/
def neuronDraws (input_neurons : Nat) : Nat → Rng → List Neuron × Rng
  | 0, r => ([], r)
  | k + 1, r =>
    let (n, r1) := Neuron.random r input_neurons
    let (rest, r2) := neuronDraws input_neurons k r1
    (n :: rest, r2)

/-- Layer::random.  The source does NOT receive a random source from
its caller: it opens the ambient thread-local generator itself
(let mut rng = rand::thread_rng()).  The threadRng argument here
embeds the state of that ambient thread-local stream, which no caller
of Network::random controls or seeds. -/
def Layer.random (threadRng : Rng) (input_neurons output_neurons : Nat) : Layer × Rng :=
  let (ns, r') := neuronDraws input_neurons output_neurons threadRng
  (⟨ns⟩, r')

/-- windows(2) over the topology's neuron counts. -/
def windowPairs : List Nat → List (Nat × Nat)
  | a :: b :: rest => (a, b) :: windowPairs (b :: rest)
  | _ => []

/-- The layer loop of Network::random, threading the ambient
thread-local generator state. -/
def layerDraws : List (Nat × Nat) → Rng → List Layer × Rng
  | [], r => ([], r)
  | (i, o) :: rest, r =>
    let (l, r1) := Layer.random r i o
    let (ls, r2) := layerDraws rest r1
    (l :: ls, r2)

/-- Network::random: assert!(layers.len() > 1) (modelled as None), then
one Layer::random per adjacent topology pair.  No caller-supplied
random source exists in the signature; threadRng is the ambient
thread-local stream state. -/
def Network.random (threadRng : Rng) (layers : List LayerTopology) : Option Network :=
  if layers.length ≤ 1 then none
  else some ⟨(layerDraws (windowPairs (layers.map (·.neurons))) threadRng).1⟩

/-- Modelled from the spec: the flatten direction of the chromosome
encoding (section 4.6; the decode/encode code lives in the simulation
crate, which is not under src).  One neuron contributes all its
weights and then its bias. -/
def flattenNeuron (n : Neuron) : List ℚ :=
  n.weights ++ [n.bias]

/-- Modelled from the spec: genes of the neurons of one layer, in
neuron order. -/
def flattenNeurons : List Neuron → List ℚ
  | [] => []
  | n :: ns => flattenNeuron n ++ flattenNeurons ns

/-- Modelled from the spec: genes of the layers in order. -/
def flattenLayers : List Layer → List ℚ
  | [] => []
  | l :: ls => flattenNeurons l.neurons ++ flattenLayers ls

/-- Modelled from the spec: flatten a network into a chromosome, genes
in the fixed traversal order of section 4.6. -/
def Network.toChromosome (net : Network) : Chromosome :=
  ⟨flattenLayers net.layers⟩

/-- Modelled from the spec: decode one neuron from the front of a gene
sequence, consuming its weight count and then one bias gene; fails if
the genes run out. -/
def decodeNeuron (inputs : Nat) (genes : List ℚ) : Option (Neuron × List ℚ) :=
  match genes.drop inputs with
  | [] => none
  | b :: rest => some (⟨b, genes.take inputs⟩, rest)

/-- Modelled from the spec: decode a layer's neurons one after the
other. -/
def decodeNeurons (inputs : Nat) : Nat → List ℚ → Option (List Neuron × List ℚ)
  | 0, genes => some ([], genes)
  | k + 1, genes =>
    (decodeNeuron inputs genes).bind fun p =>
      (decodeNeurons inputs k p.2).bind fun q => some (p.1 :: q.1, q.2)

/-- Modelled from the spec: decode the layers in order, each adjacent
topology pair (inputs, neurons) consuming its genes. -/
def decodeLayers : List (Nat × Nat) → List ℚ → Option (List Layer × List ℚ)
  | [], genes => some ([], genes)
  | p :: rest, genes =>
    (decodeNeurons p.1 p.2 genes).bind fun a =>
      (decodeLayers rest a.2).bind fun b => some (⟨a.1⟩ :: b.1, b.2)

/-- Modelled from the spec: build a network from a chromosome over a
fixed topology.  A fatal construction error (modelled as None) when
the topology is shorter than two entries, when the genes run out, or
when genes are left over. -/
def Network.fromChromosome (topology : List Nat) (c : Chromosome) : Option Network :=
  if topology.length < 2 then none
  else
    (decodeLayers (windowPairs topology) c.genes).bind fun a =>
      if a.2.isEmpty then some ⟨a.1⟩ else none

/-- The gene count one adjacent (inputs, neurons) topology pair
consumes: neurons × inputs weights plus neurons biases. -/
def expectedLenPairs : List (Nat × Nat) → Nat
  | [] => 0
  | (i, o) :: rest => (o * i + o) + expectedLenPairs rest

/-- The chromosome length a topology requires: the sum over layers of
neurons_in_layer × inputs_to_layer + neurons_in_layer. -/
def expectedLen (topology : List Nat) : Nat :=
  expectedLenPairs (windowPairs topology)

/-- One layer's neurons have the shape an (inputs, neurons) topology
pair dictates. -/
def neuronsShaped (inputs count : Nat) (ns : List Neuron) : Bool :=
  ns.length == count && ns.all (fun n => n.weights.length == inputs)

/-- The layers match the topology pairs one to one. -/
def layersShaped : List (Nat × Nat) → List Layer → Bool
  | [], [] => true
  | (i, o) :: ps, l :: ls => neuronsShaped i o l.neurons && layersShaped ps ls
  | _, _ => false

/-- A network has the shape a topology dictates. -/
def networkShaped (topology : List Nat) (net : Network) : Bool :=
  decide (2 ≤ topology.length) && layersShaped (windowPairs topology) net.layers

/-- A shared concrete random source for the witnesses: the all-zeros
stream. -/
def rng0 : Rng := ⟨fun _ => 0, 0⟩
/-- A concrete Individual implementation for the witness: the
individual is its own chromosome. -/
def ops0 : IndividualOps Chromosome := ⟨id, fun _ => 1, id⟩

/-- A concrete operator triple for the witness: head selection, the
real uniform crossover, the real Gaussian mutation with chance 0. -/
def ga0 : GeneticAlgorithm Chromosome :=
  ⟨fun r pop => pop.head?.map fun x => (x, r),
   UniformCrossover.crossover,
   GaussianMutation.mutate ⟨0, 1⟩⟩

/-- gen_bool with p ≠ 1 consumes one raw draw and compares it against
p·2^64. -/
theorem genBool_ne_one (p : ℚ) (r : Rng) (h : p ≠ 1) :
    genBool p r =
      (decide ((↑(r.stream r.idx % u64Size) : ℚ) < p * 2 ^ 64), ⟨r.stream, r.idx + 1⟩) := by
  simp [genBool, Rng.next, h]

/-- gen_bool(0) always answers false and consumes one raw draw: the
zero Bernoulli threshold rejects every raw value. -/
theorem genBool_zero (r : Rng) : genBool 0 r = (false, ⟨r.stream, r.idx + 1⟩) := by
  rw [genBool_ne_one 0 r (by norm_num)]
  have hv : ¬ ((↑(r.stream r.idx % u64Size) : ℚ) < 0 * 2 ^ 64) := by
    rw [zero_mul]
    exact not_lt.mpr (Nat.cast_nonneg _)
  simp [hv]

/-- The gene loop of mutate with chance 0 touches no gene and consumes
two raw draws per gene (the sign draw and the chance draw). -/
theorem mutateGo_zero_chance (coeff : ℚ) :
    ∀ (gs : List ℚ) (r : Rng),
      mutateGo ⟨0, coeff⟩ gs r = (gs, ⟨r.stream, r.idx + 2 * gs.length⟩)
  | [], r => by simp [mutateGo]
  | g :: gs, r => by
    rw [mutateGo]
    rw [genBool_ne_one (1 / 2) r (by norm_num)]
    simp only []
    rw [genBool_zero]
    simp only [Bool.false_eq_true, if_false]
    rw [mutateGo_zero_chance coeff gs ⟨r.stream, r.idx + 1 + 1⟩]
    simp only [List.length_cons]
    congr 2
    omega

/-- C7: with chance = 0 Gaussian mutation leaves every gene unchanged,
for any coefficient and any random source state, even though the
per-gene draws (the sign draw among them) are still consumed: the
resulting chromosome equals the input and the source has advanced by
two raw draws per gene. -/
theorem gaussianMutation_zero_chance_noop (coeff : ℚ) (rng : Rng) (child : Chromosome) :
    (GaussianMutation.mutate ⟨0, coeff⟩ rng child).1 = child ∧
    (GaussianMutation.mutate ⟨0, coeff⟩ rng child).2 =
      ⟨rng.stream, rng.idx + 2 * child.len⟩ := by
  unfold GaussianMutation.mutate
  rw [mutateGo_zero_chance]
  exact ⟨rfl, rfl⟩

/-- C8: constructing a Gaussian mutation operator fails exactly when
chance lies outside [0, 1]; for any chance in [0, 1] and any
coefficient it succeeds, with the given configuration. -/
theorem gaussianMutation_new_validates (chance coeff : ℚ) :
    (GaussianMutation.new chance coeff = none ↔ chance < 0 ∨ 1 < chance) ∧
    (0 ≤ chance → chance ≤ 1 → GaussianMutation.new chance coeff = some ⟨chance, coeff⟩) := by
  unfold GaussianMutation.new
  constructor
  · split
    next h =>
      simp only [reduceCtorEq, false_iff]
      push_neg
      exact ⟨h.1, h.2⟩
    next h =>
      simp only [true_iff]
      by_contra hc
      push_neg at hc
      exact h ⟨hc.1, hc.2⟩
  · intro h0 h1
    rw [if_pos ⟨h0, h1⟩]

/-- C8 witness: chance 1/2 with coefficient 3/4 is accepted. -/
theorem gaussianMutation_new_validates_witness :
    (0 : ℚ) ≤ 1 / 2 ∧ (1 / 2 : ℚ) ≤ 1 ∧
      GaussianMutation.new (1 / 2) (3 / 4) = some ⟨1 / 2, 3 / 4⟩ :=
  ⟨by norm_num, by norm_num,
    (gaussianMutation_new_validates (1 / 2) (3 / 4)).2 (by norm_num) (by norm_num)⟩

/-- C9: collecting any finite sequence of floats into a chromosome and
iterating the chromosome reproduces the sequence exactly, in the same
order, with no deduplication. -/
theorem chromosome_roundtrip (l : List ℚ) : (Chromosome.fromSeq l).iterSeq = l := rfl

/-- C10: evolve on an empty population returns an empty population
normally, for every choice of operators — including a selection
operator that fails on every input — because zero iterations run, so
no selection, crossover or mutation is ever performed. -/
theorem evolve_empty_population {I : Type} (ops : IndividualOps I)
    (ga : GeneticAlgorithm I) (rng : Rng) :
    evolve ops ga rng ([] : List I) = some [] := rfl

/-- C4 (code-bug exhibit): Network::random accepts no caller-supplied
random source; Layer::random opens the ambient thread-local generator
itself.  Two runs over the identical topology therefore depend on the
ambient thread state alone: with two different ambient states the
resulting networks differ, so construction is not reproducible from
any caller-held seed, contradicting the claim's consequence. -/
theorem networkRandom_threadState_dependent :
    Network.random ⟨fun _ => 0, 0⟩ [⟨1⟩, ⟨1⟩] ≠
      Network.random ⟨fun _ => 2 ^ 63, 0⟩ [⟨1⟩, ⟨1⟩] := by decide

/-- The 0-th coin after r's cursor is the flip gen_bool(0.5) yields at
r itself. -/
theorem coinAt_zero (r : Rng) : coinAt r 0 = (genBool (1 / 2) r).1 := rfl

/-- Advancing the cursor by one shifts the coin positions by one. -/
theorem coinAt_succ (r : Rng) (i : Nat) :
    coinAt ⟨r.stream, r.idx + 1⟩ i = coinAt r (i + 1) := by
  unfold coinAt
  rw [show r.idx + 1 + i = r.idx + (i + 1) by omega]

/-- The crossover loop on equal-length gene lists: the child keeps one
gene per position, chosen by the position's fair coin flip (the flips
are consumed in position order), and the source advances by one draw
per position. -/
theorem crossoverGo_spec :
    ∀ (as_ bs : List ℚ) (r : Rng), as_.length = bs.length →
      (crossoverGo as_ bs r).1.length = as_.length ∧
      (crossoverGo as_ bs r).2 = ⟨r.stream, r.idx + as_.length⟩ ∧
      ∀ i, i < as_.length →
        (crossoverGo as_ bs r).1[i]? = if coinAt r i then as_[i]? else bs[i]?
  | [], [], r, _ => by
    refine ⟨rfl, by simp [crossoverGo], fun i hi => absurd hi (by simp)⟩
  | [], _ :: _, _, h => by simp at h
  | _ :: _, [], _, h => by simp at h
  | a :: as_, b :: bs, r, h => by
    have h' : as_.length = bs.length := by simpa using h
    obtain ⟨hlen, hsnd, hget⟩ := crossoverGo_spec as_ bs ⟨r.stream, r.idx + 1⟩ h'
    have hflip : coinAt r 0 = decide ((↑(r.stream r.idx % u64Size) : ℚ) < 1 / 2 * 2 ^ 64) := by
      rw [coinAt_zero, genBool_ne_one (1 / 2) r (by norm_num)]
    rw [crossoverGo, genBool_ne_one (1 / 2) r (by norm_num)]
    simp only []
    refine ⟨by simp [hlen], ?_, ?_⟩
    · rw [hsnd]
      simp only [List.length_cons]
      congr 1
      omega
    · intro i hi
      match i with
      | 0 =>
        rw [hflip]
        cases hd : decide ((↑(r.stream r.idx % u64Size) : ℚ) < 1 / 2 * 2 ^ 64) <;>
          simp [hd]
      | i + 1 =>
        have hi' : i < as_.length := by simpa using hi
        simp only [List.getElem?_cons_succ]
        rw [hget i hi', coinAt_succ]

/-- C2: for two parents of equal length n and any random source,
uniform crossover succeeds with a child of length n whose gene at
each position, taken in order, is the parent-a gene when that
position's fair coin flip is true and the parent-b gene otherwise
(one flip consumed per position); for parents of different lengths it
fails. -/
theorem uniformCrossover_spec (rng : Rng) (parent_a parent_b : Chromosome) :
    (parent_a.len = parent_b.len →
      (UniformCrossover.crossover rng parent_a parent_b).isSome = true ∧
      ∀ child rng', UniformCrossover.crossover rng parent_a parent_b = some (child, rng') →
        child.len = parent_a.len ∧
        rng' = ⟨rng.stream, rng.idx + parent_a.len⟩ ∧
        ∀ i, i < parent_a.len →
          child.genes[i]? =
            if coinAt rng i then parent_a.genes[i]? else parent_b.genes[i]?) ∧
    (parent_a.len ≠ parent_b.len →
      UniformCrossover.crossover rng parent_a parent_b = none) := by
  constructor
  · intro h
    obtain ⟨hlen, hsnd, hget⟩ := crossoverGo_spec parent_a.genes parent_b.genes rng h
    unfold UniformCrossover.crossover
    rw [if_pos h]
    refine ⟨rfl, fun child rng' h' => ?_⟩
    simp only [Option.some.injEq, Prod.mk.injEq] at h'
    obtain ⟨hc, hr⟩ := h'
    subst hc
    subst hr
    exact ⟨hlen, hsnd, hget⟩
  · intro h
    unfold UniformCrossover.crossover
    rw [if_neg h]

/-- C2 witness: two concrete length-3 parents cross over successfully
under the all-zeros source. -/
theorem uniformCrossover_spec_witness :
    (⟨[1, 2, 3]⟩ : Chromosome).len = (⟨[4, 5, 6]⟩ : Chromosome).len ∧
    (UniformCrossover.crossover rng0 ⟨[1, 2, 3]⟩ ⟨[4, 5, 6]⟩).isSome = true :=
  ⟨by decide, ((uniformCrossover_spec rng0 ⟨[1, 2, 3]⟩ ⟨[4, 5, 6]⟩).1 (by decide)).1⟩

/-- A neuron on a matching input vector computes the rectified linear
unit of bias plus dot product. -/
theorem neuron_propagate_eq (n : Neuron) (inputs : List ℚ)
    (h : inputs.length = n.weights.length) :
    n.propagate inputs = some (max 0 (n.bias + dot inputs n.weights)) := by
  unfold Neuron.propagate
  rw [if_pos h, max_comm]

/-- A layer whose neurons all match the input length outputs one value
per neuron. -/
theorem collectOutputs_all (inputs : List ℚ) :
    ∀ ns : List Neuron, (∀ n ∈ ns, inputs.length = n.weights.length) →
      collectOutputs ns inputs =
        some (ns.map fun n => max 0 (n.bias + dot inputs n.weights))
  | [], _ => rfl
  | n :: ns, h => by
    rw [collectOutputs, neuron_propagate_eq n inputs (h n (by simp))]
    simp only []
    rw [collectOutputs_all inputs ns (fun m hm => h m (by simp [hm]))]
    simp

/-- A layer containing any neuron whose weight count does not match
the input length fails. -/
theorem collectOutputs_none (inputs : List ℚ) :
    ∀ ns : List Neuron, ∀ n ∈ ns, inputs.length ≠ n.weights.length →
      collectOutputs ns inputs = none
  | m :: ns, n, hn, hne => by
    rcases List.mem_cons.mp hn with h | h
    · subst h
      rw [collectOutputs]
      unfold Neuron.propagate
      rw [if_neg hne]
    · rw [collectOutputs]
      cases hp : m.propagate inputs with
      | none => rfl
      | some o =>
        simp only []
        rw [collectOutputs_none inputs ns n h hne]

/-- C3: per neuron, the output on a matching input vector is
max(0, bias + Σ input_j · weight_j), the rectified linear activation,
applied uniformly in every layer including the final one (a network's
layers are applied in order with no distinct output activation), and
propagation fails whenever an input vector's length does not match a
neuron's weight count. -/
theorem propagation_relu_spec :
    (∀ (n : Neuron) (inputs : List ℚ), inputs.length = n.weights.length →
        n.propagate inputs = some (max 0 (n.bias + dot inputs n.weights))) ∧
    (∀ (n : Neuron) (inputs : List ℚ), inputs.length ≠ n.weights.length →
        n.propagate inputs = none) ∧
    (∀ (l : Layer) (inputs : List ℚ),
        (∀ n ∈ l.neurons, inputs.length = n.weights.length) →
        l.propagate inputs =
          some (l.neurons.map fun n => max 0 (n.bias + dot inputs n.weights))) ∧
    (∀ (l : Layer) (inputs : List ℚ) (n : Neuron), n ∈ l.neurons →
        inputs.length ≠ n.weights.length → l.propagate inputs = none) ∧
    (∀ (l : Layer) (ls : List Layer) (inputs : List ℚ),
        Network.propagate ⟨l :: ls⟩ inputs =
          (l.propagate inputs).bind fun mid => Network.propagate ⟨ls⟩ mid) ∧
    (∀ inputs : List ℚ, Network.propagate ⟨[]⟩ inputs = some inputs) := by
  refine ⟨neuron_propagate_eq, ?_, ?_, ?_, ?_, fun _ => rfl⟩
  · intro n inputs h
    unfold Neuron.propagate
    rw [if_neg h]
  · intro l inputs h
    exact collectOutputs_all inputs l.neurons h
  · intro l inputs n hn hne
    exact collectOutputs_none inputs l.neurons n hn hne
  · intro l ls inputs
    cases hp : l.propagate inputs <;>
      simp [Network.propagate, propagateLayers, Layer.propagate] at hp ⊢ <;>
      rw [hp]

/-- C3 witness: the repository's own test neuron (bias 0.5, weights
[-0.3, 0.8]) on input [0.5, 1]. -/
theorem propagation_relu_spec_witness :
    ([(1 : ℚ) / 2, 1].length = [(-3 : ℚ) / 10, 4 / 5].length) ∧
    Neuron.propagate ⟨1 / 2, [-3 / 10, 4 / 5]⟩ [1 / 2, 1] =
      some (max 0 (1 / 2 + dot [1 / 2, 1] [-3 / 10, 4 / 5])) :=
  ⟨by decide, propagation_relu_spec.1 ⟨1 / 2, [-3 / 10, 4 / 5]⟩ [1 / 2, 1] (by decide)⟩

/-- The WeightedIndex accumulation succeeds on nonnegative remaining
weights with a positive grand total, returning that total and one
cumulative entry per weight seen. -/
theorem weightedIndexGo_ok :
    ∀ (ws : List ℚ) (total : ℚ) (acc : List ℚ), (∀ w ∈ ws, 0 ≤ w) →
      0 < total + ws.sum →
      ∃ cums, weightedIndexGo ws total acc = .ok (cums, total + ws.sum) ∧
        cums.length = acc.length + ws.length
  | [], total, acc, _, hpos => by
    rw [weightedIndexGo]
    have h0 : 0 < total := by simpa using hpos
    rw [if_neg h0.ne']
    exact ⟨acc.reverse, by simp, by simp⟩
  | w :: ws, total, acc, hnn, hpos => by
    rw [weightedIndexGo]
    rw [if_neg (not_lt.mpr (hnn w (by simp)))]
    have hpos' : 0 < (total + w) + ws.sum := by
      simp only [List.sum_cons] at hpos
      linarith
    obtain ⟨cums, hok, hlen⟩ := weightedIndexGo_ok ws (total + w) (total :: acc)
      (fun x hx => hnn x (by simp [hx])) hpos'
    refine ⟨cums, ?_, by simp at hlen ⊢; omega⟩
    rw [hok]
    congr 2
    simp only [List.sum_cons]
    ring

/-- The WeightedIndex accumulation from a zero running total rejects
any all-nonpositive tail: a negative weight is an invalid weight, and
an all-zero tail leaves the total at zero. -/
theorem weightedIndexGo_err :
    ∀ (ws : List ℚ) (acc : List ℚ), (∀ w ∈ ws, w ≤ 0) →
      ∃ e, weightedIndexGo ws (0 : ℚ) acc = .error e
  | [], acc, _ => ⟨.allWeightsZero, by rw [weightedIndexGo, if_pos rfl]⟩
  | w :: ws, acc, hnp => by
    rw [weightedIndexGo]
    by_cases hw : w < 0
    · exact ⟨.invalidWeight, by rw [if_pos hw]⟩
    · have hw0 : w = 0 := le_antisymm (hnp w (by simp)) (not_lt.mp hw)
      rw [if_neg hw, hw0, add_zero]
      exact weightedIndexGo_err ws (0 :: acc) fun x hx => hnp x (by simp [hx])

/-- WeightedIndex::new succeeds on a weight list that is nonnegative
throughout and positive somewhere, returning the sum as the total and
one fewer cumulative entry than there are weights. -/
theorem weightedIndexNew_ok (ws : List ℚ) (hnn : ∀ w ∈ ws, 0 ≤ w)
    (hpos : ∃ w ∈ ws, 0 < w) :
    ∃ cums, weightedIndexNew ws = .ok (cums, ws.sum) ∧
      cums.length + 1 = ws.length := by
  cases ws with
  | nil => simp at hpos
  | cons w ws' =>
    rw [weightedIndexNew]
    rw [if_neg (not_lt.mpr (hnn w (by simp)))]
    have hsum : 0 < w + ws'.sum := by
      obtain ⟨x, hx, hxp⟩ := hpos
      have hle : x ≤ (w :: ws').sum := List.single_le_sum hnn x hx
      simp only [List.sum_cons] at hle
      linarith
    obtain ⟨cums, hok, hlen⟩ := weightedIndexGo_ok ws' w [] (fun x hx => hnn x (by simp [hx])) hsum
    exact ⟨cums, by rw [hok]; simp, by simp at hlen ⊢; omega⟩

/-- The WeightedIndex accumulation rejects a remaining negative weight
with InvalidWeight, whatever came before it. -/
theorem weightedIndexGo_neg :
    ∀ (ws : List ℚ) (total : ℚ) (acc : List ℚ), (∃ w ∈ ws, w < 0) →
      weightedIndexGo ws total acc = .error .invalidWeight
  | [], _, _, h => by simp at h
  | w :: ws, total, acc, h => by
    rw [weightedIndexGo]
    by_cases hw : w < 0
    · rw [if_pos hw]
    · rw [if_neg hw]
      obtain ⟨x, hx, hxneg⟩ := h
      rcases List.mem_cons.mp hx with rfl | hx'
      · exact absurd hxneg hw
      · exact weightedIndexGo_neg ws (total + w) (total :: acc) ⟨x, hx', hxneg⟩

/-- WeightedIndex::new rejects any weight list containing a negative
weight with InvalidWeight. -/
theorem weightedIndexNew_neg (ws : List ℚ) (h : ∃ w ∈ ws, w < 0) :
    weightedIndexNew ws = .error .invalidWeight := by
  cases ws with
  | nil => simp at h
  | cons w ws' =>
    rw [weightedIndexNew]
    by_cases hw : w < 0
    · rw [if_pos hw]
    · rw [if_neg hw]
      obtain ⟨x, hx, hxneg⟩ := h
      rcases List.mem_cons.mp hx with rfl | hx'
      · exact absurd hxneg hw
      · exact weightedIndexGo_neg ws' w [] ⟨x, hx', hxneg⟩

/-- C6 (amended): roulette-wheel selection fails with an explicit
error — never a silent fallback — when the population is empty, when
any member's fitness is negative (rand rejects the negative weight
with InvalidWeight, even if another member's fitness is positive), or
when every member's fitness is zero (in particular whenever all
fitness values are ≤ 0); when every member's fitness is nonnegative
and at least one is strictly positive, it returns a member of the
population. -/
theorem rouletteWheel_select_spec {I : Type} (fitness : I → ℚ) (rng : Rng)
    (population : List I) :
    (population = [] ∨ (∀ x ∈ population, fitness x ≤ 0) →
      ∃ e, chooseWeighted fitness rng population = .error e) ∧
    ((∃ x ∈ population, fitness x < 0) →
      chooseWeighted fitness rng population = .error .invalidWeight) ∧
    ((∀ x ∈ population, 0 ≤ fitness x) → (∃ x ∈ population, 0 < fitness x) →
      ∃ member rng', chooseWeighted fitness rng population = .ok (member, rng') ∧
        member ∈ population) := by
  refine ⟨?_, ?_, ?_⟩
  swap
  · intro hneg
    obtain ⟨x, hx, hxneg⟩ := hneg
    unfold chooseWeighted
    rw [weightedIndexNew_neg (population.map fitness)
      ⟨fitness x, List.mem_map_of_mem _ hx, hxneg⟩]
  · intro hfail
    cases population with
    | nil => exact ⟨.noItem, rfl⟩
    | cons p ps =>
      have hnp : ∀ x ∈ p :: ps, fitness x ≤ 0 := by
        rcases hfail with h | h
        · cases h
        · exact h
      unfold chooseWeighted
      simp only [List.map_cons]
      rw [weightedIndexNew]
      by_cases hp : fitness p < 0
      · rw [if_pos hp]
        exact ⟨.invalidWeight, rfl⟩
      · have hp0 : fitness p = 0 := le_antisymm (hnp p (by simp)) (not_lt.mp hp)
        rw [if_neg hp, hp0]
        obtain ⟨e, he⟩ := weightedIndexGo_err (ps.map fitness) []
          (fun x hx => by
            obtain ⟨y, hy, rfl⟩ := List.mem_map.mp hx
            exact hnp y (by simp [hy]))
        rw [he]
        exact ⟨e, rfl⟩
  · intro hnn hpos
    have hnn' : ∀ w ∈ population.map fitness, 0 ≤ w := by
      intro w hw
      obtain ⟨x, hx, rfl⟩ := List.mem_map.mp hw
      exact hnn x hx
    have hpos' : ∃ w ∈ population.map fitness, 0 < w := by
      obtain ⟨x, hx, hxp⟩ := hpos
      exact ⟨fitness x, List.mem_map_of_mem _ hx, hxp⟩
    obtain ⟨cums, hnew, hlen⟩ := weightedIndexNew_ok _ hnn' hpos'
    unfold chooseWeighted
    rw [hnew]
    simp only []
    have hbound : (cums.takeWhile (fun w =>
        decide (w ≤ (population.map fitness).sum * ((rng.next.1 : ℚ) / 2 ^ 64)))).length <
        population.length := by
      have h1 : (cums.takeWhile (fun w =>
          decide (w ≤ (population.map fitness).sum * ((rng.next.1 : ℚ) / 2 ^ 64)))).length ≤
          cums.length := (List.takeWhile_sublist _).length_le
      have h2 : cums.length + 1 = population.length := by simpa using hlen
      omega
    rw [List.getElem?_eq_getElem hbound]
    exact ⟨population[(cums.takeWhile _).length], rng.next.2, rfl, List.getElem_mem hbound⟩

/-- C6 counterexample: the population with fitness values [1, -1] has
a member of strictly positive fitness, yet selection does not return a
member — rand's weighted sampling rejects the negative weight with an
InvalidWeight error, which the expect turns into a panic. -/
theorem rouletteWheel_positive_member_still_fails :
    ((0 : ℚ) < 1 ∧ (1 : ℚ) ∈ [(1 : ℚ), -1]) ∧
    chooseWeighted (fun x : ℚ => x) rng0 [(1 : ℚ), -1] = .error .invalidWeight :=
  ⟨⟨by norm_num, by decide⟩, rfl⟩

/-- C6 witness: on the repository test's fitness values [2, 1, 4, 3]
(all nonnegative, some positive) selection succeeds with a member. -/
theorem rouletteWheel_select_spec_witness :
    (∀ x ∈ [(2 : ℚ), 1, 4, 3], 0 ≤ x) ∧ (∃ x ∈ [(2 : ℚ), 1, 4, 3], 0 < x) ∧
    ∃ member rng', chooseWeighted (fun x : ℚ => x) rng0 [(2 : ℚ), 1, 4, 3] =
        .ok (member, rng') ∧ member ∈ [(2 : ℚ), 1, 4, 3] :=
  ⟨by decide, by decide,
    (rouletteWheel_select_spec (fun x => x) rng0 [2, 1, 4, 3]).2.2 (by decide) (by decide)⟩

/-- Unrolling one evolve iteration into the ordered operator
pipeline. -/
theorem evolveLoop_succ_pipeline {I : Type} (ops : IndividualOps I)
    (ga : GeneticAlgorithm I) (population : List I) (k : Nat) (rng : Rng) :
    evolveLoop ops ga population (k + 1) rng =
      (ga.selectionMethod rng population).bind fun pa =>
      (ga.selectionMethod pa.2 population).bind fun pb =>
      (ga.crossoverMethod pb.2 (ops.chromosome pa.1) (ops.chromosome pb.1)).bind fun cr =>
      (evolveLoop ops ga population k (ga.mutationMethod cr.2 cr.1).2).map fun rest =>
        ops.create (ga.mutationMethod cr.2 cr.1).1 :: rest := by
  rw [evolveLoop]
  cases hpa : ga.selectionMethod rng population with
  | none => rfl
  | some pa =>
    obtain ⟨parentA, r1⟩ := pa
    simp only [Option.some_bind]
    cases hpb : ga.selectionMethod r1 population with
    | none => rfl
    | some pb =>
      obtain ⟨parentB, r2⟩ := pb
      simp only [Option.some_bind]
      cases hcr : ga.crossoverMethod r2 (ops.chromosome parentA) (ops.chromosome parentB) with
      | none => rfl
      | some cr =>
        obtain ⟨child, r3⟩ := cr
        simp only [Option.some_bind]
        cases hrest : evolveLoop ops ga population k (ga.mutationMethod r3 child).2 with
        | none => rfl
        | some rest => rfl

/-- A returning evolve loop produces exactly one individual per
iteration. -/
theorem evolveLoop_length {I : Type} (ops : IndividualOps I) (ga : GeneticAlgorithm I)
    (population : List I) :
    ∀ (k : Nat) (rng : Rng) (out : List I),
      evolveLoop ops ga population k rng = some out → out.length = k
  | 0, rng, out, h => by
    rw [evolveLoop] at h
    cases h
    rfl
  | k + 1, rng, out, h => by
    rw [evolveLoop_succ_pipeline] at h
    simp only [Option.bind_eq_some, Option.map_eq_some'] at h
    obtain ⟨pa, hpa, pb, hpb, cr, hcr, rest, hrest, rfl⟩ := h
    simp [evolveLoop_length ops ga population k _ _ hrest]

/-- Every individual a returning evolve loop emits was built by the
create factory. -/
theorem evolveLoop_creates {I : Type} (ops : IndividualOps I) (ga : GeneticAlgorithm I)
    (population : List I) :
    ∀ (k : Nat) (rng : Rng) (out : List I),
      evolveLoop ops ga population k rng = some out →
      ∀ x ∈ out, ∃ c, x = ops.create c
  | 0, rng, out, h => by
    rw [evolveLoop] at h
    cases h
    intro x hx
    cases hx
  | k + 1, rng, out, h => by
    rw [evolveLoop_succ_pipeline] at h
    simp only [Option.bind_eq_some, Option.map_eq_some'] at h
    obtain ⟨pa, hpa, pb, hpb, cr, hcr, rest, hrest, rfl⟩ := h
    intro x hx
    rcases List.mem_cons.mp hx with hx | hx
    · exact ⟨(ga.mutationMethod cr.2 cr.1).1, hx⟩
    · exact evolveLoop_creates ops ga population k _ _ hrest x hx

/-- C1: whenever an evolve call returns (it can only fail inside a
pluggable operator), it returns a fresh population of exactly the
input population's size, built by one iteration per input member;
each iteration, in this order, selects parent a, independently
selects parent b from the same population (possibly the same
individual), crosses the two parents' chromosomes into a child
chromosome, mutates the child, and constructs a new individual with
the Individual create factory; every member of the returned
population is such a freshly created individual, fully replacing the
old population. -/
theorem evolve_generational_spec {I : Type} (ops : IndividualOps I)
    (ga : GeneticAlgorithm I) :
    (∀ (rng : Rng) (population out : List I),
        evolve ops ga rng population = some out →
        out.length = population.length ∧ ∀ x ∈ out, ∃ c, x = ops.create c) ∧
    (∀ (population : List I) (k : Nat) (rng : Rng),
        evolveLoop ops ga population (k + 1) rng =
          (ga.selectionMethod rng population).bind fun pa =>
          (ga.selectionMethod pa.2 population).bind fun pb =>
          (ga.crossoverMethod pb.2 (ops.chromosome pa.1) (ops.chromosome pb.1)).bind fun cr =>
          (evolveLoop ops ga population k (ga.mutationMethod cr.2 cr.1).2).map fun rest =>
            ops.create (ga.mutationMethod cr.2 cr.1).1 :: rest) ∧
    (∀ (rng : Rng) (population : List I),
        evolve ops ga rng population =
          evolveLoop ops ga population population.length rng) := by
  refine ⟨fun rng population out h => ?_,
    fun population k rng => evolveLoop_succ_pipeline ops ga population k rng,
    fun _ _ => rfl⟩
  exact ⟨evolveLoop_length ops ga population population.length rng out h,
    evolveLoop_creates ops ga population population.length rng out h⟩


/-- C1 witness: a two-member population evolves to a two-member
population of freshly created individuals. -/
theorem evolve_generational_spec_witness :
    evolve ops0 ga0 rng0 [⟨[1, 2]⟩, ⟨[3, 4]⟩] = some [⟨[1, 2]⟩, ⟨[1, 2]⟩] ∧
    ([⟨[1, 2]⟩, ⟨[1, 2]⟩] : List Chromosome).length =
      ([⟨[1, 2]⟩, ⟨[3, 4]⟩] : List Chromosome).length :=
  ⟨by decide,
    ((evolve_generational_spec ops0 ga0).1 rng0 [⟨[1, 2]⟩, ⟨[3, 4]⟩]
      [⟨[1, 2]⟩, ⟨[1, 2]⟩] (by decide)).1⟩

/-- A successful neuron decode took the weight count from the front,
then the bias: re-flattening it and appending the remainder restores
the gene sequence, and the gene count went down by inputs + 1. -/
theorem decodeNeuron_some (inputs : Nat) (genes g' : List ℚ) (n : Neuron)
    (h : decodeNeuron inputs genes = some (n, g')) :
    flattenNeuron n ++ g' = genes ∧ n.weights.length = inputs ∧
      genes.length = g'.length + (inputs + 1) := by
  unfold decodeNeuron at h
  cases hd : genes.drop inputs with
  | nil => rw [hd] at h; cases h
  | cons b rest =>
    rw [hd] at h
    simp only [Option.some.injEq, Prod.mk.injEq] at h
    obtain ⟨hn, hg⟩ := h
    subst hn
    subst hg
    have hdl := congrArg List.length hd
    simp only [List.length_drop, List.length_cons] at hdl
    have hlt : inputs < genes.length := by omega
    refine ⟨?_, by simp [List.length_take]; omega, by omega⟩
    rw [show flattenNeuron ⟨b, genes.take inputs⟩ = genes.take inputs ++ [b] from rfl,
      List.append_assoc]
    show genes.take inputs ++ (b :: rest) = genes
    rw [← hd, List.take_append_drop]

/-- A neuron decode succeeds whenever at least inputs + 1 genes
remain. -/
theorem decodeNeuron_isSome (inputs : Nat) (genes : List ℚ)
    (h : inputs + 1 ≤ genes.length) :
    ∃ n g', decodeNeuron inputs genes = some (n, g') := by
  unfold decodeNeuron
  cases hd : genes.drop inputs with
  | nil =>
    have hdl := congrArg List.length hd
    simp only [List.length_drop, List.length_nil] at hdl
    omega
  | cons b rest => exact ⟨_, _, rfl⟩

/-- Decoding the flattening of a neuron recovers the neuron and leaves
the appended remainder untouched. -/
theorem decodeNeuron_roundtrip (inputs : Nat) (n : Neuron) (rest : List ℚ)
    (h : n.weights.length = inputs) :
    decodeNeuron inputs (flattenNeuron n ++ rest) = some (n, rest) := by
  subst h
  unfold decodeNeuron flattenNeuron
  rw [show n.weights ++ [n.bias] ++ rest = n.weights ++ (n.bias :: rest) by
    rw [List.append_assoc]; rfl]
  rw [List.drop_left, List.take_left]

/-- A successful multi-neuron decode re-flattens to the consumed
genes, is shaped as requested, and consumed count · (inputs + 1)
genes. -/
theorem decodeNeurons_some (inputs : Nat) :
    ∀ (count : Nat) (genes g' : List ℚ) (ns : List Neuron),
      decodeNeurons inputs count genes = some (ns, g') →
      flattenNeurons ns ++ g' = genes ∧ neuronsShaped inputs count ns = true ∧
        genes.length = g'.length + count * (inputs + 1)
  | 0, genes, g', ns, h => by
    rw [decodeNeurons] at h
    cases h
    exact ⟨rfl, by simp [neuronsShaped], by simp⟩
  | count + 1, genes, g', nsOut, h => by
    rw [decodeNeurons] at h
    simp only [Option.bind_eq_some, Option.some.injEq, Prod.mk.injEq] at h
    obtain ⟨p, hdn, q, hdns, hcons, hg⟩ := h
    subst hcons
    subst hg
    obtain ⟨hf1, hw1, hl1⟩ := decodeNeuron_some inputs genes p.2 p.1 hdn
    obtain ⟨hf2, hs2, hl2⟩ := decodeNeurons_some inputs count p.2 q.2 q.1 hdns
    refine ⟨?_, ?_, ?_⟩
    · rw [flattenNeurons, List.append_assoc, hf2, hf1]
    · simp only [neuronsShaped, List.all_cons, Bool.and_eq_true, beq_iff_eq,
        List.length_cons] at hs2 ⊢
      exact ⟨by omega, hw1, hs2.2⟩
    · rw [Nat.succ_mul]
      omega

/-- Decoding succeeds whenever count · (inputs + 1) genes are
available. -/
theorem decodeNeurons_ex (inputs : Nat) :
    ∀ (count : Nat) (genes : List ℚ), count * (inputs + 1) ≤ genes.length →
      ∃ ns g', decodeNeurons inputs count genes = some (ns, g')
  | 0, genes, _ => ⟨[], genes, by rw [decodeNeurons]⟩
  | count + 1, genes, h => by
    rw [Nat.succ_mul] at h
    obtain ⟨n, g1, hdn⟩ := decodeNeuron_isSome inputs genes (by omega)
    obtain ⟨_, _, hl1⟩ := decodeNeuron_some inputs genes g1 n hdn
    obtain ⟨ns, g2, hdns⟩ := decodeNeurons_ex inputs count g1 (by omega)
    refine ⟨n :: ns, g2, ?_⟩
    rw [decodeNeurons, hdn]
    simp only [Option.some_bind]
    rw [hdns]
    rfl

/-- Decoding the flattening of a shaped neuron list recovers it. -/
theorem decodeNeurons_roundtrip (inputs : Nat) :
    ∀ (count : Nat) (ns : List Neuron) (rest : List ℚ),
      neuronsShaped inputs count ns = true →
      decodeNeurons inputs count (flattenNeurons ns ++ rest) = some (ns, rest)
  | 0, ns, rest, h => by
    simp only [neuronsShaped, Bool.and_eq_true, beq_iff_eq] at h
    have hnil : ns = [] := List.length_eq_zero.mp h.1
    subst hnil
    rw [decodeNeurons]
    rfl
  | count + 1, ns, rest, h => by
    simp only [neuronsShaped, Bool.and_eq_true, beq_iff_eq, List.length_cons] at h
    obtain ⟨hlen, hall⟩ := h
    cases ns with
    | nil => simp at hlen
    | cons n ns' =>
      simp only [List.all_cons, Bool.and_eq_true, beq_iff_eq] at hall
      rw [decodeNeurons]
      rw [show flattenNeurons (n :: ns') ++ rest =
          flattenNeuron n ++ (flattenNeurons ns' ++ rest) by
        rw [flattenNeurons, List.append_assoc]]
      rw [decodeNeuron_roundtrip inputs n (flattenNeurons ns' ++ rest) hall.1]
      simp only [Option.some_bind]
      rw [decodeNeurons_roundtrip inputs count ns' rest (by
        simp only [neuronsShaped, Bool.and_eq_true, beq_iff_eq]
        refine ⟨by simp at hlen; omega, hall.2⟩)]
      rfl

/-- A successful layer-list decode re-flattens to the consumed genes,
matches the topology pairs, and consumed exactly the pairs' gene
count. -/
theorem decodeLayers_some :
    ∀ (ps : List (Nat × Nat)) (genes g' : List ℚ) (ls : List Layer),
      decodeLayers ps genes = some (ls, g') →
      flattenLayers ls ++ g' = genes ∧ layersShaped ps ls = true ∧
        genes.length = g'.length + expectedLenPairs ps
  | [], genes, g', ls, h => by
    rw [decodeLayers] at h
    cases h
    exact ⟨rfl, rfl, by simp [expectedLenPairs]⟩
  | (i, o) :: ps, genes, g', lsOut, h => by
    rw [decodeLayers] at h
    simp only [Option.bind_eq_some, Option.some.injEq, Prod.mk.injEq] at h
    obtain ⟨a, hdns, b, hdl, hcons, hg⟩ := h
    subst hcons
    subst hg
    obtain ⟨hf1, hs1, hl1⟩ := decodeNeurons_some i o genes a.2 a.1 hdns
    obtain ⟨hf2, hs2, hl2⟩ := decodeLayers_some ps a.2 b.2 b.1 hdl
    refine ⟨?_, ?_, ?_⟩
    · rw [flattenLayers, List.append_assoc, hf2]
      exact hf1
    · rw [layersShaped, Bool.and_eq_true]
      exact ⟨hs1, hs2⟩
    · rw [expectedLenPairs]
      have hmul : o * (i + 1) = o * i + o := Nat.mul_succ o i
      omega

/-- A layer-list decode succeeds whenever the pairs' gene count is
available. -/
theorem decodeLayers_ex :
    ∀ (ps : List (Nat × Nat)) (genes : List ℚ), expectedLenPairs ps ≤ genes.length →
      ∃ ls g', decodeLayers ps genes = some (ls, g')
  | [], genes, _ => ⟨[], genes, by rw [decodeLayers]⟩
  | (i, o) :: ps, genes, h => by
    rw [expectedLenPairs] at h
    have hmul : o * (i + 1) = o * i + o := Nat.mul_succ o i
    obtain ⟨ns, g1, hdns⟩ := decodeNeurons_ex i o genes (by omega)
    obtain ⟨_, _, hl1⟩ := decodeNeurons_some i o genes g1 ns hdns
    obtain ⟨ls, g2, hdl⟩ := decodeLayers_ex ps g1 (by omega)
    refine ⟨⟨ns⟩ :: ls, g2, ?_⟩
    rw [decodeLayers, hdns]
    simp only [Option.some_bind]
    rw [hdl]
    rfl

/-- Decoding the flattening of a shaped layer list recovers it. -/
theorem decodeLayers_roundtrip :
    ∀ (ps : List (Nat × Nat)) (ls : List Layer) (rest : List ℚ),
      layersShaped ps ls = true →
      decodeLayers ps (flattenLayers ls ++ rest) = some (ls, rest)
  | [], [], rest, _ => by
    rw [decodeLayers]
    rfl
  | [], _ :: _, _, h => by simp [layersShaped] at h
  | (_, _) :: _, [], _, h => by simp [layersShaped] at h
  | (i, o) :: ps, l :: ls, rest, h => by
    rw [layersShaped, Bool.and_eq_true] at h
    obtain ⟨h1, h2⟩ := h
    rw [decodeLayers]
    rw [show flattenLayers (l :: ls) ++ rest =
        flattenNeurons l.neurons ++ (flattenLayers ls ++ rest) by
      rw [flattenLayers, List.append_assoc]]
    rw [decodeNeurons_roundtrip i o l.neurons (flattenLayers ls ++ rest) h1]
    simp only [Option.some_bind]
    rw [decodeLayers_roundtrip ps ls rest h2]
    rfl

/-- C5 (spec-modelled): decoding a flat chromosome consumes genes in
the fixed all-weights-then-bias order, neuron by neuron and layer by
layer; on a fixed topology decode and flatten are mutually inverse (a
lossless bijection between chromosomes of the expected length and
shaped networks); and construction fails exactly when the chromosome
length differs from the sum over layers of neurons · inputs +
neurons. -/
theorem chromosome_network_codec :
    (∀ (topology : List Nat) (net : Network), networkShaped topology net = true →
        Network.fromChromosome topology (Network.toChromosome net) = some net) ∧
    (∀ (topology : List Nat) (c : Chromosome) (net : Network),
        Network.fromChromosome topology c = some net →
        Network.toChromosome net = c ∧ networkShaped topology net = true) ∧
    (∀ (topology : List Nat) (c : Chromosome), 2 ≤ topology.length →
        (Network.fromChromosome topology c = none ↔
          c.genes.length ≠ expectedLen topology)) := by
  refine ⟨?_, ?_, ?_⟩
  · intro topology net h
    rw [networkShaped, Bool.and_eq_true, decide_eq_true_eq] at h
    obtain ⟨h2, hs⟩ := h
    unfold Network.fromChromosome
    rw [if_neg (by omega)]
    have hrt := decodeLayers_roundtrip (windowPairs topology) net.layers [] hs
    rw [List.append_nil] at hrt
    rw [show (Network.toChromosome net).genes = flattenLayers net.layers from rfl, hrt]
    rfl
  · intro topology c net h
    unfold Network.fromChromosome at h
    by_cases hlt : topology.length < 2
    · rw [if_pos hlt] at h
      cases h
    · rw [if_neg hlt] at h
      simp only [Option.bind_eq_some] at h
      obtain ⟨a, hdl, ha⟩ := h
      by_cases hemp : a.2.isEmpty = true
      · rw [if_pos hemp] at ha
        simp only [Option.some.injEq] at ha
        subst ha
        obtain ⟨hf, hs, _⟩ := decodeLayers_some (windowPairs topology) c.genes a.2 a.1 hdl
        have hnil : a.2 = [] := by
          cases hx : a.2 with
          | nil => rfl
          | cons y ys => rw [hx] at hemp; cases hemp
        rw [hnil, List.append_nil] at hf
        constructor
        · show (⟨flattenLayers a.1⟩ : Chromosome) = c
          rw [hf]
        · rw [networkShaped, Bool.and_eq_true, decide_eq_true_eq]
          exact ⟨by omega, hs⟩
      · rw [if_neg hemp] at ha
        cases ha
  · intro topology c h2
    unfold Network.fromChromosome
    rw [if_neg (by omega)]
    constructor
    · intro hnone heq
      obtain ⟨ls, g', hdl⟩ := decodeLayers_ex (windowPairs topology) c.genes (by
        rw [expectedLen] at heq
        omega)
      obtain ⟨_, _, hlen⟩ := decodeLayers_some _ _ _ _ hdl
      have hg : g' = [] := by
        rw [expectedLen] at heq
        exact List.length_eq_zero.mp (by omega)
      subst hg
      rw [hdl] at hnone
      simp at hnone
    · intro hne
      cases hdl : decodeLayers (windowPairs topology) c.genes with
      | none => rfl
      | some a =>
        obtain ⟨_, _, hlen⟩ := decodeLayers_some _ _ _ _ hdl
        have hne' : a.2 ≠ [] := by
          intro hnil
          rw [hnil] at hlen
          rw [expectedLen] at hne
          simp at hlen
          omega
        have hemp : a.2.isEmpty = false := by
          cases hx : a.2 with
          | nil => exact absurd hx hne'
          | cons y ys => rfl
        simp only [Option.some_bind, hemp, Bool.false_eq_true, if_false]

/-- C5 witness: topology [2, 1] and the shaped one-neuron network with
weights [1, 2] and bias 3 round-trip through the chromosome
[1, 2, 3]. -/
theorem chromosome_network_codec_witness :
    networkShaped [2, 1] ⟨[⟨[⟨3, [1, 2]⟩]⟩]⟩ = true ∧
    Network.fromChromosome [2, 1] (Network.toChromosome ⟨[⟨[⟨3, [1, 2]⟩]⟩]⟩) =
      some ⟨[⟨[⟨3, [1, 2]⟩]⟩]⟩ :=
  ⟨by decide, chromosome_network_codec.1 [2, 1] ⟨[⟨[⟨3, [1, 2]⟩]⟩]⟩ (by decide)⟩
